import Mathlib

/-!
Verification development for the TOPSIS scoring program (`topsis.py`).

The program reads a CSV table whose first column is an identifier and whose
remaining columns are numeric criteria, validates a comma-separated weight
string and impact string, then computes vector-normalized, weighted TOPSIS
scores and pandas competition/average ranks, appends them as two columns,
and writes the result.

The embedding below models:
  * CSV cells as either float-parseable (`Cell.num`) or not (`Cell.str`);
  * a pandas DataFrame as an ordered list of named columns (`DF`);
  * the validation phase of `topsis` (lines 6-42 of the source) as the
    computable function `validate`;
  * the numeric pipeline (lines 43-59) over the reals, with IEEE NaN
    propagation modeled by `Option ℝ` (`none` = non-finite); pandas
    `skipna` column/row reductions skip those entries;
  * the rank/materialize phase (lines 60-64) with pandas column-assignment
    semantics (replace an existing column in place, else append).
-/

namespace TopsisPy

/-- Cell of the input table: `num q` is a cell whose content parses as the
float `q` under `astype(float)`; `str s` is a cell that does not parse. -/
inductive Cell where
  | str (s : String)
  | num (q : ℚ)
deriving DecidableEq

/-- Float value of a cell, as used by `data.astype(float)` (line 24). -/
def cellFloat? : Cell → Option ℚ
  | .num q => some q
  | .str _ => none

/-- A pandas DataFrame: an ordered list of named columns. -/
structure DF where
  cols : List (String × List Cell)
deriving DecidableEq

/-- Number of columns, `df.shape[1]` (line 18). -/
def DF.nCols (df : DF) : ℕ := df.cols.length

/-- Number of rows, `df.shape[0]`: length of the data of the first column. -/
def DF.nRows (df : DF) : ℕ :=
  match df.cols with
  | [] => 0
  | c :: _ => c.2.length

/-- Column names of the DataFrame. -/
def DF.names (df : DF) : List String := df.cols.map (fun c => c.1)

/-- The DataFrame is rectangular: every column has `nRows` entries. -/
def DF.Rect (df : DF) : Prop := ∀ c ∈ df.cols, c.2.length = df.nRows

instance (df : DF) : Decidable df.Rect :=
  inferInstanceAs (Decidable (∀ c ∈ df.cols, c.2.length = df.nRows))

/-- State of the input file argument: missing (line 8), unreadable by
`pd.read_csv` (lines 12-16), or a successfully read table. -/
inductive FileIn where
  | missing
  | unreadable
  | table (df : DF)

/-- Numeric value of a digit list, most significant first. -/
def digitsToNat (cs : List Char) : ℕ :=
  cs.foldl (fun n c => 10 * n + (c.toNat - 48)) 0

/-- Modeled from the source: core of Python `float()` on an unsigned token,
covering plain and decimal-point forms (`"12"`, `"3.5"`, `".5"`, `"2."`);
exponent and special forms are not used by any claim. -/
def pyFloatCore (cs : List Char) : Option ℚ :=
  match cs.splitOn '.' with
  | [a] =>
    if a ≠ [] ∧ a.all Char.isDigit then some ((digitsToNat a : ℚ)) else none
  | [a, b] =>
    if (a ++ b) ≠ [] ∧ (a ++ b).all Char.isDigit then
      some ((digitsToNat a : ℚ) + (digitsToNat b : ℚ) / ((10 : ℚ) ^ b.length))
    else none
  | _ => none

/-- Python `float()` applied to a weight token (line 35), with optional sign. -/
def pyFloat? (s : String) : Option ℚ :=
  match s.toList with
  | '-' :: rest => (pyFloatCore rest).map (fun q => -q)
  | '+' :: rest => pyFloatCore rest
  | cs => pyFloatCore cs

/-- Python `s.split(",")` (lines 28-29). -/
def pySplit (s : String) : List String :=
  (s.toList.splitOn ',').map (fun cs => String.mk cs)

/-- Sequence a list of options: `some` of the list of values iff every
element is `some`; models a loop/comprehension that fails on the first
unparseable element. -/
def seqOption {α : Type} : List (Option α) → Option (List α)
  | [] => some []
  | o :: os => o.bind (fun x => (seqOption os).map (fun xs => x :: xs))

/-- Line 35: `[float(w) for w in weight_list]` — all weight tokens parsed
as floats, or `none` if any token fails (the `except` branch). -/
def parseFloats (s : String) : Option (List ℚ) :=
  seqOption ((pySplit s).map pyFloat?)

/-- Result of `data.astype(float)` (line 24) on the criterion columns:
`some` of the rational columns iff every cell parses as a float. -/
def colsToRat? (cols : List (String × List Cell)) : Option (List (List ℚ)) :=
  seqOption (cols.map (fun c => seqOption (c.2.map cellFloat?)))

/-- The validated data available after line 42: the original table, the
criterion columns as rationals, the parsed weights, the impact tokens. -/
structure ValidInput where
  df : DF
  X : List (List ℚ)
  wts : List ℚ
  imps : List String
deriving DecidableEq

/-- Validation phase of `topsis` (lines 6-42), in the check order of the source:
file existence, readability, at least 3 columns, numeric criterion cells,
weight/impact counts, weight parsing, impact symbols.  Each failing check
prints one message and returns; the message strings follow the source
(f-string interpolation and inner quotes elided). -/
def validate (f : FileIn) (weights impacts : String) : Except String ValidInput :=
  match f with
  | .missing => .error "Error: File not found."
  | .unreadable => .error "Error: Could not read CSV file."
  | .table df =>
    if df.nCols < 3 then
      .error "Error: Input file must have at least 3 columns (first column names, others numeric)."
    else
      match colsToRat? (df.cols.drop 1) with
      | none => .error "Error: All criteria columns must be numeric."
      | some X =>
        if (pySplit weights).length ≠ X.length ∨ (pySplit impacts).length ≠ X.length then
          .error "Error: Number of weights and impacts must match number of criteria columns."
        else
          match seqOption ((pySplit weights).map pyFloat?) with
          | none => .error "Error: Weights must be numeric."
          | some ws =>
            if (pySplit impacts).all (fun t => t == "+" || t == "-") then
              .ok ⟨df, X, ws, pySplit impacts⟩
            else
              .error "Error: Impacts must be + or - only."

/-- Semantic description of an input that passes every validation check:
a readable table with at least 3 columns, all criterion cells numeric,
weight and impact token counts equal to the criterion count, all weight
tokens float-parseable, all impact tokens `+` or `-`. -/
def wellFormed (f : FileIn) (weights impacts : String) : Prop :=
  match f with
  | .table df =>
    3 ≤ df.nCols ∧
    (∀ c ∈ df.cols.drop 1, ∀ cell ∈ c.2, (cellFloat? cell).isSome = true) ∧
    (pySplit weights).length = df.nCols - 1 ∧
    (pySplit impacts).length = df.nCols - 1 ∧
    (∀ t ∈ pySplit weights, (pyFloat? t).isSome = true) ∧
    (∀ t ∈ pySplit impacts, t = "+" ∨ t = "-")
  | _ => False

instance (f : FileIn) (w i : String) : Decidable (wellFormed f w i) := by
  unfold wellFormed
  cases f <;> infer_instance

/-- Column `j` of the criterion data (column-wise, as pandas stores it). -/
def colj (X : List (List ℚ)) (j : ℕ) : List ℚ := X.getD j []

/-- Weight `j`. -/
def wj (ws : List ℚ) (j : ℕ) : ℚ := ws.getD j 0

/-- Impact token `j`. -/
def impj (imps : List String) (j : ℕ) : String := imps.getD j "+"

/-- Entry of a column at row `i`. -/
def entry (col : List ℚ) (i : ℕ) : ℚ := col.getD i 0

/-- The column is degenerate: every entry is zero, which is exactly the
condition under which its Euclidean norm `sqrt(sum_i x_i^2)` is zero (see
`colNorm_pos`). -/
def colDeg (col : List ℚ) : Prop := ∀ x ∈ col, x = 0

instance (col : List ℚ) : Decidable (colDeg col) :=
  inferInstanceAs (Decidable (∀ x ∈ col, x = 0))

/-- Line 43: `norm = np.sqrt((data ** 2).sum())`, the per-column Euclidean
norm (the rational sum of squares, evaluated in ℝ). -/
noncomputable def colNorm (col : List ℚ) : ℝ :=
  Real.sqrt (((col.map (fun x => x ^ 2)).sum : ℚ))

/-- Lines 44-45 at a single position: the weighted normalized entry
`data[i][j] / norm_j * w_j`.  This is the float value at any position of a
non-degenerate column; on a degenerate column the float division 0/0
produces NaN instead (see `scoreRow`, which skips those columns as pandas
`skipna` reductions do). -/
noncomputable def wEntry (col : List ℚ) (w : ℚ) (i : ℕ) : ℝ :=
  ((entry col i : ℚ) : ℝ) / colNorm col * (w : ℚ)

/-- Lines 44-45 column-wise: the weighted normalized column
`data[:,j] / norm_j * w_j` (value-level; meaningful for non-degenerate
columns). -/
noncomputable def wCol (col : List ℚ) (w : ℚ) : List ℝ :=
  col.map (fun x => ((x : ℚ) : ℝ) / colNorm col * (w : ℚ))

/-- Maximum of a float list, as pandas `Series.max` over the present
values (0 for an empty list; never used on one). -/
noncomputable def listMax : List ℝ → ℝ
  | [] => 0
  | x :: xs => xs.foldl max x

/-- Minimum of a float list, as pandas `Series.min`. -/
noncomputable def listMin : List ℝ → ℝ
  | [] => 0
  | x :: xs => xs.foldl min x

/-- Lines 48-54: ideal best of column `j` — the column maximum of the
weighted data when the impact is `"+"`, the minimum otherwise. -/
noncomputable def idealBestCol (col : List ℚ) (w : ℚ) (imp : String) : ℝ :=
  if imp = "+" then listMax (wCol col w) else listMin (wCol col w)

/-- Lines 48-54: ideal worst of column `j` — minimum for `"+"`, maximum
otherwise. -/
noncomputable def idealWorstCol (col : List ℚ) (w : ℚ) (imp : String) : ℝ :=
  if imp = "+" then listMin (wCol col w) else listMax (wCol col w)

/-- Indices of the non-degenerate criterion columns.  A degenerate column
holds only NaN after the division on line 44, and every pandas reduction
on lines 50-58 skips NaN entries (`skipna=True` defaults), so those
columns contribute nothing to the distances. -/
def okIdx (X : List (List ℚ)) : List ℕ :=
  (List.range X.length).filter (fun j => decide (¬ colDeg (colj X j)))

/-- Line 57: `d_best[i] = sqrt(sum_j((weighted[i][j] - best[j])^2))`,
the row sum taken over the non-NaN (non-degenerate) columns as pandas
`sum(axis=1)` does. -/
noncomputable def dBest (X : List (List ℚ)) (ws : List ℚ) (imps : List String) (i : ℕ) : ℝ :=
  Real.sqrt (((okIdx X).map (fun j =>
    (wEntry (colj X j) (wj ws j) i -
      idealBestCol (colj X j) (wj ws j) (impj imps j)) ^ 2)).sum)

/-- Line 58: `d_worst[i]`, dually. -/
noncomputable def dWorst (X : List (List ℚ)) (ws : List ℚ) (imps : List String) (i : ℕ) : ℝ :=
  Real.sqrt (((okIdx X).map (fun j =>
    (wEntry (colj X j) (wj ws j) i -
      idealWorstCol (colj X j) (wj ws j) (impj imps j)) ^ 2)).sum)

/-- Line 59: `score = d_worst / (d_best + d_worst)` in float arithmetic.
Both distances are nonnegative, so a zero denominator means a 0/0
division, whose float result is NaN (`none`); otherwise the real quotient. -/
noncomputable def scoreRow (X : List (List ℚ)) (ws : List ℚ) (imps : List String) (i : ℕ) :
    Option ℝ :=
  if dBest X ws imps i + dWorst X ws imps i = 0 then none
  else some (dWorst X ws imps i / (dBest X ws imps i + dWorst X ws imps i))

/-- The score column: one (possibly NaN) score per input row. -/
noncomputable def scoresList (X : List (List ℚ)) (ws : List ℚ) (imps : List String) (n : ℕ) :
    List (Option ℝ) :=
  (List.range n).map (scoreRow X ws imps)

/-- Truncation toward zero, as numpy/pandas `astype(int)` on a float. -/
def ratTrunc (q : ℚ) : ℤ := if 0 ≤ q then ⌊q⌋ else -⌊-q⌋

/-- Line 61: `Series.rank(ascending=False).astype(int)`.  The default pandas
rank method is `average`: each value receives the mean of the 1-based
descending-order positions its tie group occupies, which equals
(number of strictly greater values) + (tie-group size + 1) / 2; the result
is then truncated to an integer by `astype(int)`. -/
def pandasRank {α : Type} [DecidableEq α] [LT α]
    [DecidableRel ((· < ·) : α → α → Prop)] (s : List α) : List ℤ :=
  s.map (fun x =>
    ratTrunc ((s.countP (fun y => decide (x < y)) : ℚ) + ((s.count x : ℚ) + 1) / 2))

/-- A column of the output table: either an original column of cells, the
float score column, or the integer rank column. -/
inductive OutCol where
  | cells (cs : List Cell)
  | scoreVals (rs : List ℝ)
  | rankVals (zs : List ℤ)

/-- Number of rows in an output column. -/
def outColLen : OutCol → ℕ
  | .cells cs => cs.length
  | .scoreVals rs => rs.length
  | .rankVals zs => zs.length

/-- The output table written to the result CSV. -/
structure OutDF where
  cols : List (String × OutCol)

/-- Pandas column assignment `df[name] = v` (lines 60-61): if a column of
that name exists it is overwritten in place, otherwise the new column is
appended at the end. -/
def setCol (cols : List (String × OutCol)) (name : String) (v : OutCol) :
    List (String × OutCol) :=
  if cols.any (fun c => c.1 == name) then
    cols.map (fun c => if c.1 == name then (name, v) else c)
  else cols ++ [(name, v)]

/-- First column of a given name, as pandas `df[name]` lookup. -/
def getCol? (cols : List (String × OutCol)) (name : String) : Option OutCol :=
  (cols.find? (fun c => c.1 == name)).map (fun c => c.2)

/-- Observable outcome of one `topsis` invocation: `err` = one error line
printed, `None` returned, no output written; `ok` = success line printed,
output file written; `crash` = an uncaught exception escapes (traceback,
no output file, no normal return). -/
inductive TopsisResult where
  | err (msg : String)
  | ok (msg : String) (out : OutDF)
  | crash (msg : String)

/-- The score column values actually stored in the output (in the
non-crashing branch every entry is `some`, so the default is never used). -/
noncomputable def scoreValsOf (v : ValidInput) : List ℝ :=
  (scoresList v.X v.wts v.imps v.df.nRows).map (fun o => o.getD 0)

/-- The whole `topsis` function (lines 6-65).  After validation the scores
are computed; if any score is NaN, the `astype(int)` on line 61 raises
`ValueError` before the output is written.  Otherwise the score and rank
columns are assigned (overwriting same-named columns in place) and the
table is written. -/
noncomputable def topsis (f : FileIn) (weights impacts : String) : TopsisResult :=
  match validate f weights impacts with
  | .error m => .err m
  | .ok v =>
    if (scoresList v.X v.wts v.imps v.df.nRows).any (fun o => o.isNone) then
      .crash "ValueError: Cannot convert non-finite values (NA or inf) to integer"
    else
      .ok "TOPSIS completed successfully!"
        ⟨setCol
          (setCol (v.df.cols.map (fun c => (c.1, OutCol.cells c.2)))
            "Topsis Score" (OutCol.scoreVals (scoreValsOf v)))
          "Rank" (OutCol.rankVals (pandasRank (scoreValsOf v)))⟩

/-- Output file produced by the invocation, if any. -/
def outputOf : TopsisResult → Option OutDF
  | .ok _ o => some o
  | _ => none

/-- Lines printed to stdout by the invocation. -/
def printedOf : TopsisResult → List String
  | .err m => [m]
  | .ok m _ => [m]
  | .crash _ => []

/-- Whether the invocation ends in an uncaught exception. -/
def raisesOf : TopsisResult → Bool
  | .crash _ => true
  | _ => false

/-- Rational condition equivalent to a zero score denominator: every
non-degenerate column has zero weight or constant raw values (then every
weighted column is constant, so each row coincides with both ideals). -/
def degRow (X : List (List ℚ)) (ws : List ℚ) : Prop :=
  ∀ j ∈ okIdx X, wj ws j = 0 ∨ ∀ a ∈ colj X j, ∀ b ∈ colj X j, a = b

instance (X : List (List ℚ)) (ws : List ℚ) : Decidable (degRow X ws) :=
  inferInstanceAs (Decidable (∀ j ∈ okIdx X, _ ∨ _))

/-- Specification, step 1: `norm_j = sqrt(sum_i(raw[i][j]^2))`. -/
noncomputable def specNorm {n m : ℕ} (raw : Fin n → Fin m → ℝ) (j : Fin m) : ℝ :=
  Real.sqrt (∑ i, raw i j ^ 2)

/-- Specification, step 1: `normalized[i][j] = raw[i][j] / norm_j`. -/
noncomputable def specNormalized {n m : ℕ} (raw : Fin n → Fin m → ℝ) (i : Fin n) (j : Fin m) :
    ℝ :=
  raw i j / specNorm raw j

/-- Specification, step 2: `weighted[i][j] = normalized[i][j] * weight[j]`. -/
noncomputable def specWeighted {n m : ℕ} (raw : Fin n → Fin m → ℝ) (w : Fin m → ℝ)
    (i : Fin n) (j : Fin m) : ℝ :=
  specNormalized raw i j * w j

/-- Specification, step 3: benefit → `best[j] = max_i(weighted[i][j])`,
cost → `best[j] = min_i(weighted[i][j])`. -/
noncomputable def specBest {n m : ℕ} (raw : Fin n → Fin m → ℝ) (w : Fin m → ℝ)
    (benefit : Fin m → Bool) (hn : 0 < n) (j : Fin m) : ℝ :=
  if benefit j then
    Finset.univ.sup' ⟨⟨0, hn⟩, Finset.mem_univ _⟩ (fun i => specWeighted raw w i j)
  else
    Finset.univ.inf' ⟨⟨0, hn⟩, Finset.mem_univ _⟩ (fun i => specWeighted raw w i j)

/-- Specification, step 3: benefit → `worst[j] = min_i(weighted[i][j])`,
cost → `worst[j] = max_i(weighted[i][j])`. -/
noncomputable def specWorst {n m : ℕ} (raw : Fin n → Fin m → ℝ) (w : Fin m → ℝ)
    (benefit : Fin m → Bool) (hn : 0 < n) (j : Fin m) : ℝ :=
  if benefit j then
    Finset.univ.inf' ⟨⟨0, hn⟩, Finset.mem_univ _⟩ (fun i => specWeighted raw w i j)
  else
    Finset.univ.sup' ⟨⟨0, hn⟩, Finset.mem_univ _⟩ (fun i => specWeighted raw w i j)

/-- Specification, step 4: `d_best[i] = sqrt(sum_j((weighted[i][j] - best[j])^2))`. -/
noncomputable def specDBest {n m : ℕ} (raw : Fin n → Fin m → ℝ) (w : Fin m → ℝ)
    (benefit : Fin m → Bool) (hn : 0 < n) (i : Fin n) : ℝ :=
  Real.sqrt (∑ j, (specWeighted raw w i j - specBest raw w benefit hn j) ^ 2)

/-- Specification, step 4: `d_worst[i]`, dually. -/
noncomputable def specDWorst {n m : ℕ} (raw : Fin n → Fin m → ℝ) (w : Fin m → ℝ)
    (benefit : Fin m → Bool) (hn : 0 < n) (i : Fin n) : ℝ :=
  Real.sqrt (∑ j, (specWeighted raw w i j - specWorst raw w benefit hn j) ^ 2)

/-- Specification, step 5: `score[i] = d_worst[i] / (d_best[i] + d_worst[i])`. -/
noncomputable def specScore {n m : ℕ} (raw : Fin n → Fin m → ℝ) (w : Fin m → ℝ)
    (benefit : Fin m → Bool) (hn : 0 < n) (i : Fin n) : ℝ :=
  specDWorst raw w benefit hn i / (specDBest raw w benefit hn i + specDWorst raw w benefit hn i)

/-- The raw criterion matrix read off the validated column data. -/
def rawOf (X : List (List ℚ)) (n : ℕ) : Fin n → Fin X.length → ℝ :=
  fun i j => ((entry (colj X j) i : ℚ) : ℝ)

/-- Example table: two alternatives, criteria `C1 = [0, 1]`, `C2 = [1, 0]`
(unit column norms, distinct rows). -/
def egA : DF :=
  ⟨[("Name", [.str "A", .str "B"]), ("C1", [.num 0, .num 1]), ("C2", [.num 1, .num 0])]⟩

/-- Example table that already contains a numeric column named `Rank`. -/
def egRank : DF :=
  ⟨[("Name", [.str "A", .str "B"]), ("C1", [.num 0, .num 1]), ("Rank", [.num 1, .num 0])]⟩

/-- Example table that already contains a numeric column named `Topsis Score`. -/
def egTS : DF :=
  ⟨[("Name", [.str "A", .str "B"]), ("C1", [.num 0, .num 1]),
    ("Topsis Score", [.num 1, .num 0])]⟩

/-- Example table with an all-zero criterion column `Z` and a second
criterion `C = [7, 24]`. -/
def egZero : DF :=
  ⟨[("Name", [.str "A", .str "B"]), ("Z", [.num 0, .num 0]), ("C", [.num 7, .num 24])]⟩

/-- Example single-row table `A = (3, 4)`. -/
def egOne : DF :=
  ⟨[("Name", [.str "A"]), ("C1", [.num 3]), ("C2", [.num 4])]⟩

/-- Example table with a non-numeric criterion cell. -/
def egBad : DF :=
  ⟨[("Name", [.str "A"]), ("C1", [.str "x"]), ("C2", [.num 1])]⟩

/-- The validated input produced by `validate` on `egA` with unit weights
and two benefit impacts. -/
def egAValid : ValidInput := ⟨egA, [[0, 1], [1, 0]], [1, 1], ["+", "+"]⟩

end TopsisPy

namespace TopsisPy

theorem le_foldl_max_init (xs : List ℝ) (b : ℝ) : b ≤ xs.foldl max b := by
  induction xs generalizing b with
  | nil => exact le_refl b
  | cons x xs ih => exact (le_max_left b x).trans (ih (max b x))

theorem le_foldl_max {xs : List ℝ} {b a : ℝ} (h : a = b ∨ a ∈ xs) :
    a ≤ xs.foldl max b := by
  induction xs generalizing b with
  | nil =>
    rcases h with h | h
    · exact h.le
    · cases h
  | cons x xs ih =>
    rcases h with h | h
    · subst h
      exact (le_max_left a x).trans (le_foldl_max_init xs (max a x))
    · rcases List.mem_cons.mp h with h | h
      · subst h
        exact (le_max_right b a).trans (le_foldl_max_init xs (max b a))
      · exact ih (Or.inr h)

theorem foldl_max_cases (xs : List ℝ) (b : ℝ) :
    xs.foldl max b = b ∨ xs.foldl max b ∈ xs := by
  induction xs generalizing b with
  | nil => exact Or.inl rfl
  | cons x xs ih =>
    rcases ih (max b x) with h | h
    · rcases max_cases b x with ⟨he, _⟩ | ⟨he, _⟩
      · exact Or.inl (by simpa [he] using h)
      · exact Or.inr (by simp [List.foldl_cons] at h ⊢; exact Or.inl (by rw [h, he]))
    · exact Or.inr (List.mem_cons.mpr (Or.inr h))

theorem foldl_max_le {xs : List ℝ} {b c : ℝ} (hb : b ≤ c) (h : ∀ x ∈ xs, x ≤ c) :
    xs.foldl max b ≤ c := by
  induction xs generalizing b with
  | nil => exact hb
  | cons x xs ih =>
    exact ih (max_le hb (h x (List.mem_cons_self _ _)))
      (fun y hy => h y (List.mem_cons.mpr (Or.inr hy)))

theorem foldl_min_init_le (xs : List ℝ) (b : ℝ) : xs.foldl min b ≤ b := by
  induction xs generalizing b with
  | nil => exact le_refl b
  | cons x xs ih => exact (ih (min b x)).trans (min_le_left b x)

theorem foldl_min_le {xs : List ℝ} {b a : ℝ} (h : a = b ∨ a ∈ xs) :
    xs.foldl min b ≤ a := by
  induction xs generalizing b with
  | nil =>
    rcases h with h | h
    · exact h.ge
    · cases h
  | cons x xs ih =>
    rcases h with h | h
    · subst h
      exact (foldl_min_init_le xs (min a x)).trans (min_le_left a x)
    · rcases List.mem_cons.mp h with h | h
      · subst h
        exact (foldl_min_init_le xs (min b a)).trans (min_le_right b a)
      · exact ih (Or.inr h)

theorem foldl_min_cases (xs : List ℝ) (b : ℝ) :
    xs.foldl min b = b ∨ xs.foldl min b ∈ xs := by
  induction xs generalizing b with
  | nil => exact Or.inl rfl
  | cons x xs ih =>
    rcases ih (min b x) with h | h
    · rcases min_cases b x with ⟨he, _⟩ | ⟨he, _⟩
      · exact Or.inl (by simpa [he] using h)
      · exact Or.inr (by simp [List.foldl_cons] at h ⊢; exact Or.inl (by rw [h, he]))
    · exact Or.inr (List.mem_cons.mpr (Or.inr h))

theorem le_foldl_min {xs : List ℝ} {b c : ℝ} (hb : c ≤ b) (h : ∀ x ∈ xs, c ≤ x) :
    c ≤ xs.foldl min b := by
  induction xs generalizing b with
  | nil => exact hb
  | cons x xs ih =>
    exact ih (le_min hb (h x (List.mem_cons_self _ _)))
      (fun y hy => h y (List.mem_cons.mpr (Or.inr hy)))

theorem le_listMax {l : List ℝ} {a : ℝ} (h : a ∈ l) : a ≤ listMax l := by
  cases l with
  | nil => cases h
  | cons x xs =>
    rcases List.mem_cons.mp h with h | h
    · exact le_foldl_max (Or.inl h)
    · exact le_foldl_max (Or.inr h)

theorem listMax_mem {l : List ℝ} (h : l ≠ []) : listMax l ∈ l := by
  cases l with
  | nil => exact absurd rfl h
  | cons x xs =>
    rcases foldl_max_cases xs x with h' | h'
    · exact List.mem_cons.mpr (Or.inl h')
    · exact List.mem_cons.mpr (Or.inr h')

theorem listMin_le {l : List ℝ} {a : ℝ} (h : a ∈ l) : listMin l ≤ a := by
  cases l with
  | nil => cases h
  | cons x xs =>
    rcases List.mem_cons.mp h with h | h
    · exact foldl_min_le (Or.inl h)
    · exact foldl_min_le (Or.inr h)

theorem listMin_mem {l : List ℝ} (h : l ≠ []) : listMin l ∈ l := by
  cases l with
  | nil => exact absurd rfl h
  | cons x xs =>
    rcases foldl_min_cases xs x with h' | h'
    · exact List.mem_cons.mpr (Or.inl h')
    · exact List.mem_cons.mpr (Or.inr h')

theorem listMax_le {l : List ℝ} {c : ℝ} (hne : l ≠ []) (h : ∀ x ∈ l, x ≤ c) :
    listMax l ≤ c :=
  h _ (listMax_mem hne)

theorem le_listMin {l : List ℝ} {c : ℝ} (hne : l ≠ []) (h : ∀ x ∈ l, c ≤ x) :
    c ≤ listMin l :=
  h _ (listMin_mem hne)

theorem getD_of_lt {α : Type} (l : List α) (d : α) {i : ℕ} (hi : i < l.length) :
    l.getD i d = l.get ⟨i, hi⟩ := by
  simp [List.getD_eq_getElem?_getD, List.getElem?_eq_getElem hi]

theorem list_sum_zero_iff {l : List ℝ} (h : ∀ x ∈ l, 0 ≤ x) :
    l.sum = 0 ↔ ∀ x ∈ l, x = 0 := by
  constructor
  · intro hs x hx
    exact List.all_zero_of_le_zero_le_of_sum_eq_zero h hs hx
  · intro hz
    exact List.sum_eq_zero hz

theorem colDeg_sum_nonneg (col : List ℚ) : 0 ≤ (col.map (fun x => x ^ 2)).sum := by
  apply List.sum_nonneg
  intro x hx
  obtain ⟨a, _, rfl⟩ := List.mem_map.mp hx
  positivity

theorem colNorm_nonneg (col : List ℚ) : 0 ≤ colNorm col := Real.sqrt_nonneg _

theorem colNorm_pos {col : List ℚ} (h : ¬ colDeg col) : 0 < colNorm col := by
  apply Real.sqrt_pos.mpr
  have h0 : 0 ≤ (col.map (fun x => x ^ 2)).sum := colDeg_sum_nonneg col
  have h1 : (col.map (fun x => x ^ 2)).sum ≠ 0 := by
    intro hs
    apply h
    intro x hx
    have hx2 : x ^ 2 = 0 :=
      List.all_zero_of_le_zero_le_of_sum_eq_zero
        (by
          intro y hy
          obtain ⟨a, _, rfl⟩ := List.mem_map.mp hy
          positivity)
        hs (List.mem_map.mpr ⟨x, hx, rfl⟩)
    exact pow_eq_zero_iff two_ne_zero |>.mp hx2
  have h2 : 0 < (col.map (fun x => x ^ 2)).sum := lt_of_le_of_ne h0 (Ne.symm h1)
  exact_mod_cast h2

theorem mem_okIdx {X : List (List ℚ)} {j : ℕ} :
    j ∈ okIdx X ↔ j < X.length ∧ ¬ colDeg (colj X j) := by
  simp [okIdx, List.mem_filter, List.mem_range]

theorem wEntry_mem {col : List ℚ} {w : ℚ} {i : ℕ} (hi : i < col.length) :
    wEntry col w i ∈ wCol col w := by
  rw [wEntry, entry, getD_of_lt col 0 hi]
  exact List.mem_map.mpr ⟨col.get ⟨i, hi⟩, List.get_mem col i hi, rfl⟩

theorem col_ideal_eq_iff {col : List ℚ} {w : ℚ} {imp : String} {i n : ℕ}
    (hdeg : ¬ colDeg col) (hlen : col.length = n) (hi : i < n) :
    (wEntry col w i = idealBestCol col w imp ∧ wEntry col w i = idealWorstCol col w imp) ↔
      (w = 0 ∨ ∀ a ∈ col, ∀ b ∈ col, a = b) := by
  have hil : i < col.length := by omega
  have hne : col ≠ [] := by
    intro hc
    rw [hc] at hil
    simp at hil
  have hwne : wCol col w ≠ [] := by
    simp [wCol]
    exact hne
  have hnorm : colNorm col ≠ 0 := (colNorm_pos hdeg).ne'
  constructor
  · intro ⟨hb, hw⟩
    have hmaxmin : listMax (wCol col w) = listMin (wCol col w) := by
      by_cases him : imp = "+"
      · rw [idealBestCol, if_pos him] at hb
        rw [idealWorstCol, if_pos him] at hw
        rw [← hb, ← hw]
      · rw [idealBestCol, if_neg him] at hb
        rw [idealWorstCol, if_neg him] at hw
        rw [← hb, ← hw]
    by_cases hw0 : w = 0
    · exact Or.inl hw0
    · right
      intro a ha b hbm
      have hav : ((a : ℚ) : ℝ) / colNorm col * (w : ℚ) ∈ wCol col w :=
        List.mem_map.mpr ⟨a, ha, rfl⟩
      have hbv : ((b : ℚ) : ℝ) / colNorm col * (w : ℚ) ∈ wCol col w :=
        List.mem_map.mpr ⟨b, hbm, rfl⟩
      have hea : ((a : ℚ) : ℝ) / colNorm col * (w : ℚ) = listMax (wCol col w) :=
        le_antisymm (le_listMax hav) (hmaxmin ▸ listMin_le hav)
      have heb : ((b : ℚ) : ℝ) / colNorm col * (w : ℚ) = listMax (wCol col w) :=
        le_antisymm (le_listMax hbv) (hmaxmin ▸ listMin_le hbv)
      have heq : ((a : ℚ) : ℝ) / colNorm col * (w : ℚ) =
          ((b : ℚ) : ℝ) / colNorm col * (w : ℚ) := by rw [hea, heb]
      have hwc : ((w : ℚ) : ℝ) ≠ 0 := Rat.cast_ne_zero.mpr hw0
      have h2 : ((a : ℚ) : ℝ) / colNorm col = ((b : ℚ) : ℝ) / colNorm col :=
        mul_right_cancel₀ hwc heq
      field_simp [hnorm] at h2
      exact_mod_cast h2
  · intro h
    have hGoal : wEntry col w i = listMax (wCol col w) ∧
        wEntry col w i = listMin (wCol col w) := by
      rcases h with hw0 | hconst
      · subst hw0
        have hall : ∀ y ∈ wCol col 0, y = 0 := by
          intro y hy
          obtain ⟨x, _, rfl⟩ := List.mem_map.mp hy
          simp
        have hmax : listMax (wCol col 0) = 0 := hall _ (listMax_mem hwne)
        have hmin : listMin (wCol col 0) = 0 := hall _ (listMin_mem hwne)
        have hent : wEntry col 0 i = 0 := by simp [wEntry]
        exact ⟨by rw [hent, hmax], by rw [hent, hmin]⟩
      · have hcmem : col.get ⟨i, hil⟩ ∈ col := List.get_mem col i hil
        have hall : ∀ y ∈ wCol col w,
            y = ((col.get ⟨i, hil⟩ : ℚ) : ℝ) / colNorm col * (w : ℚ) := by
          intro y hy
          obtain ⟨x, hx, rfl⟩ := List.mem_map.mp hy
          rw [hconst x hx (col.get ⟨i, hil⟩) hcmem]
        have hmax := hall _ (listMax_mem hwne)
        have hmin := hall _ (listMin_mem hwne)
        have hent : wEntry col w i =
            ((col.get ⟨i, hil⟩ : ℚ) : ℝ) / colNorm col * (w : ℚ) := by
          rw [wEntry, entry, getD_of_lt col 0 hil]
        exact ⟨by rw [hent, hmax], by rw [hent, hmin]⟩
    by_cases him : imp = "+"
    · rw [idealBestCol, if_pos him, idealWorstCol, if_pos him]
      exact hGoal
    · rw [idealBestCol, if_neg him, idealWorstCol, if_neg him]
      exact ⟨hGoal.2, hGoal.1⟩

theorem denom_eq_zero_iff {X : List (List ℚ)} {ws : List ℚ} {imps : List String}
    {n i : ℕ} (hlen : ∀ col ∈ X, col.length = n) (hi : i < n) :
    dBest X ws imps i + dWorst X ws imps i = 0 ↔ degRow X ws := by
  have hbnn : ∀ x ∈ (okIdx X).map (fun j =>
      (wEntry (colj X j) (wj ws j) i -
        idealBestCol (colj X j) (wj ws j) (impj imps j)) ^ 2), 0 ≤ x := by
    intro x hx
    obtain ⟨j, _, rfl⟩ := List.mem_map.mp hx
    positivity
  have hwnn : ∀ x ∈ (okIdx X).map (fun j =>
      (wEntry (colj X j) (wj ws j) i -
        idealWorstCol (colj X j) (wj ws j) (impj imps j)) ^ 2), 0 ≤ x := by
    intro x hx
    obtain ⟨j, _, rfl⟩ := List.mem_map.mp hx
    positivity
  have hcolj : ∀ j ∈ okIdx X, (colj X j).length = n := by
    intro j hj
    obtain ⟨hjl, _⟩ := mem_okIdx.mp hj
    have : colj X j ∈ X := by
      rw [colj, getD_of_lt X [] hjl]
      exact List.get_mem X j hjl
    exact hlen _ this
  constructor
  · intro h
    have hb0 : (0 : ℝ) ≤ dBest X ws imps i := Real.sqrt_nonneg _
    have hw0 : (0 : ℝ) ≤ dWorst X ws imps i := Real.sqrt_nonneg _
    have hbe : dBest X ws imps i = 0 := by linarith
    have hwe : dWorst X ws imps i = 0 := by linarith
    rw [dBest] at hbe
    rw [dWorst] at hwe
    have hbs := le_antisymm (Real.sqrt_eq_zero'.mp hbe) (List.sum_nonneg hbnn)
    have hws := le_antisymm (Real.sqrt_eq_zero'.mp hwe) (List.sum_nonneg hwnn)
    intro j hj
    obtain ⟨hjl, hjd⟩ := mem_okIdx.mp hj
    have hmb : (wEntry (colj X j) (wj ws j) i -
        idealBestCol (colj X j) (wj ws j) (impj imps j)) ^ 2 = 0 := by
      refine (list_sum_zero_iff hbnn).mp hbs _ ?_
      exact List.mem_map.mpr ⟨j, hj, rfl⟩
    have hmw : (wEntry (colj X j) (wj ws j) i -
        idealWorstCol (colj X j) (wj ws j) (impj imps j)) ^ 2 = 0 := by
      refine (list_sum_zero_iff hwnn).mp hws _ ?_
      exact List.mem_map.mpr ⟨j, hj, rfl⟩
    have heb : wEntry (colj X j) (wj ws j) i =
        idealBestCol (colj X j) (wj ws j) (impj imps j) :=
      sub_eq_zero.mp (pow_eq_zero_iff two_ne_zero |>.mp hmb)
    have hew : wEntry (colj X j) (wj ws j) i =
        idealWorstCol (colj X j) (wj ws j) (impj imps j) :=
      sub_eq_zero.mp (pow_eq_zero_iff two_ne_zero |>.mp hmw)
    exact (col_ideal_eq_iff hjd (hcolj j hj) hi).mp ⟨heb, hew⟩
  · intro h
    have hterm : ∀ j ∈ okIdx X,
        wEntry (colj X j) (wj ws j) i =
          idealBestCol (colj X j) (wj ws j) (impj imps j) ∧
        wEntry (colj X j) (wj ws j) i =
          idealWorstCol (colj X j) (wj ws j) (impj imps j) := by
      intro j hj
      obtain ⟨hjl, hjd⟩ := mem_okIdx.mp hj
      exact (col_ideal_eq_iff hjd (hcolj j hj) hi).mpr (h j hj)
    have hbs : ((okIdx X).map (fun j =>
        (wEntry (colj X j) (wj ws j) i -
          idealBestCol (colj X j) (wj ws j) (impj imps j)) ^ 2)).sum = 0 := by
      apply List.sum_eq_zero
      intro x hx
      obtain ⟨j, hj, rfl⟩ := List.mem_map.mp hx
      rw [sub_eq_zero.mpr (hterm j hj).1]
      ring
    have hws : ((okIdx X).map (fun j =>
        (wEntry (colj X j) (wj ws j) i -
          idealWorstCol (colj X j) (wj ws j) (impj imps j)) ^ 2)).sum = 0 := by
      apply List.sum_eq_zero
      intro x hx
      obtain ⟨j, hj, rfl⟩ := List.mem_map.mp hx
      rw [sub_eq_zero.mpr (hterm j hj).2]
      ring
    rw [dBest, dWorst, hbs, hws, Real.sqrt_zero, add_zero]

theorem scoreRow_eq_none_iff {X : List (List ℚ)} {ws : List ℚ} (imps : List String)
    {n i : ℕ} (hlen : ∀ col ∈ X, col.length = n) (hi : i < n) :
    scoreRow X ws imps i = none ↔ degRow X ws := by
  rw [scoreRow]
  by_cases h : dBest X ws imps i + dWorst X ws imps i = 0
  · rw [if_pos h]
    exact iff_of_true rfl ((denom_eq_zero_iff hlen hi).mp h)
  · rw [if_neg h]
    constructor
    · intro hc
      exact absurd hc (Option.some_ne_none _)
    · intro hd
      exact absurd ((denom_eq_zero_iff hlen hi).mpr hd) h

theorem scoreRow_isSome {X : List (List ℚ)} {ws : List ℚ} (imps : List String)
    {n i : ℕ} (hlen : ∀ col ∈ X, col.length = n) (hi : i < n) (h : ¬ degRow X ws) :
    (scoreRow X ws imps i).isSome = true := by
  rw [Option.isSome_iff_ne_none]
  intro hc
  exact h ((scoreRow_eq_none_iff imps hlen hi).mp hc)

theorem scoresList_no_nan {X : List (List ℚ)} {ws : List ℚ} (imps : List String)
    {n : ℕ} (hlen : ∀ col ∈ X, col.length = n) (h : ¬ degRow X ws) :
    ((scoresList X ws imps n).any (fun o => o.isNone)) = false := by
  rw [scoresList]
  rw [List.any_eq_false]
  intro o ho
  obtain ⟨i, hi, rfl⟩ := List.mem_map.mp ho
  have hs : (scoreRow X ws imps i).isSome = true :=
    scoreRow_isSome imps hlen (List.mem_range.mp hi) h
  cases hr : scoreRow X ws imps i with
  | none => rw [hr] at hs; cases hs
  | some r => simp [hr]

theorem scoresList_nan {X : List (List ℚ)} {ws : List ℚ} (imps : List String)
    {n : ℕ} (hlen : ∀ col ∈ X, col.length = n) (hn : 0 < n) (h : degRow X ws) :
    ((scoresList X ws imps n).any (fun o => o.isNone)) = true := by
  apply List.any_eq_true.mpr
  refine ⟨scoreRow X ws imps 0, ?_, ?_⟩
  · exact List.mem_map.mpr ⟨0, List.mem_range.mpr hn, rfl⟩
  · rw [(scoreRow_eq_none_iff imps hlen hn).mpr h]
    rfl

theorem topsis_err {f : FileIn} {w i m : String} (hv : validate f w i = .error m) :
    topsis f w i = .err m := by
  unfold topsis
  rw [hv]

theorem topsis_crash {f : FileIn} {w i : String} {v : ValidInput}
    (hv : validate f w i = .ok v)
    (hc : (scoresList v.X v.wts v.imps v.df.nRows).any (fun o => o.isNone) = true) :
    topsis f w i =
      .crash "ValueError: Cannot convert non-finite values (NA or inf) to integer" := by
  unfold topsis
  rw [hv]
  simp [hc]

theorem topsis_ok {f : FileIn} {w i : String} {v : ValidInput}
    (hv : validate f w i = .ok v)
    (hc : (scoresList v.X v.wts v.imps v.df.nRows).any (fun o => o.isNone) = false) :
    topsis f w i = .ok "TOPSIS completed successfully!"
      ⟨setCol (setCol (v.df.cols.map (fun c => (c.1, OutCol.cells c.2)))
        "Topsis Score" (OutCol.scoreVals (scoreValsOf v)))
        "Rank" (OutCol.rankVals (pandasRank (scoreValsOf v)))⟩ := by
  unfold topsis
  rw [hv]
  simp [hc]

theorem any_name_iff {cols : List (String × OutCol)} {name : String} :
    (cols.any (fun c => c.1 == name)) = true ↔ name ∈ cols.map (fun c => c.1) := by
  rw [List.any_eq_true]
  constructor
  · intro ⟨c, hc, he⟩
    exact List.mem_map.mpr ⟨c, hc, (beq_iff_eq.mp he).symm ▸ rfl⟩
  · intro h
    obtain ⟨c, hc, he⟩ := List.mem_map.mp h
    exact ⟨c, hc, beq_iff_eq.mpr he⟩

theorem setCol_not_mem {cols : List (String × OutCol)} {name : String} {v : OutCol}
    (h : ¬ name ∈ cols.map (fun c => c.1)) :
    setCol cols name v = cols ++ [(name, v)] := by
  rw [setCol, if_neg]
  intro hc
  exact h (any_name_iff.mp hc)

theorem setCol_mem_length {cols : List (String × OutCol)} {name : String} {v : OutCol}
    (h : name ∈ cols.map (fun c => c.1)) :
    (setCol cols name v).length = cols.length := by
  rw [setCol, if_pos (any_name_iff.mpr h), List.length_map]

theorem setCol_not_mem_length {cols : List (String × OutCol)} {name : String} {v : OutCol}
    (h : ¬ name ∈ cols.map (fun c => c.1)) :
    (setCol cols name v).length = cols.length + 1 := by
  rw [setCol_not_mem h, List.length_append, List.length_cons, List.length_nil]

theorem names_setCol_mem {cols : List (String × OutCol)} {name : String} {v : OutCol}
    (h : name ∈ cols.map (fun c => c.1)) :
    (setCol cols name v).map (fun c => c.1) = cols.map (fun c => c.1) := by
  rw [setCol, if_pos (any_name_iff.mpr h), List.map_map]
  apply List.map_congr_left
  intro c _
  by_cases hcn : c.1 = name
  · simp [hcn]
  · simp [hcn]

theorem find?_map_replace (cols : List (String × OutCol)) (name : String) (v : OutCol)
    (h : cols.any (fun c => c.1 == name) = true) :
    (cols.map (fun c => if c.1 == name then (name, v) else c)).find?
      (fun c => c.1 == name) = some (name, v) := by
  induction cols with
  | nil => cases h
  | cons c cs ih =>
    rw [List.any_cons] at h
    by_cases hc : c.1 = name
    · rw [List.map_cons, if_pos (show (c.1 == name) = true from beq_iff_eq.mpr hc)]
      exact @List.find?_cons_of_pos _ (fun c => c.1 == name) (name, v) _
        (by simp only [beq_iff_eq])
    · have hcs : cs.any (fun c => c.1 == name) = true := by
        rcases Bool.or_eq_true_iff.mp h with h' | h'
        · exact absurd (beq_iff_eq.mp h') hc
        · exact h'
      rw [List.map_cons, if_neg (show ¬ (c.1 == name) = true from by
        simp only [beq_iff_eq]; exact hc)]
      rw [@List.find?_cons_of_neg _ (fun c => c.1 == name) c _
        (by simp only [beq_iff_eq]; exact hc)]
      exact ih hcs

theorem find?_map_replace_ne (cols : List (String × OutCol)) (name₂ : String) (v : OutCol)
    (name₁ : String) (h : name₁ ≠ name₂) :
    (cols.map (fun c => if c.1 == name₂ then (name₂, v) else c)).find?
      (fun c => c.1 == name₁) = cols.find? (fun c => c.1 == name₁) := by
  induction cols with
  | nil => rfl
  | cons c cs ih =>
    by_cases hc : c.1 = name₂
    · rw [List.map_cons, if_pos (show (c.1 == name₂) = true from beq_iff_eq.mpr hc)]
      rw [@List.find?_cons_of_neg _ (fun c => c.1 == name₁) (name₂, v) _
        (by simp only [beq_iff_eq]; exact Ne.symm h)]
      rw [@List.find?_cons_of_neg _ (fun c => c.1 == name₁) c _
        (by simp only [beq_iff_eq, hc]; exact Ne.symm h)]
      exact ih
    · rw [List.map_cons, if_neg (show ¬ (c.1 == name₂) = true from by
        simp only [beq_iff_eq]; exact hc)]
      by_cases hp : c.1 = name₁
      · rw [@List.find?_cons_of_pos _ (fun c => c.1 == name₁) c _
          (by simp only [beq_iff_eq]; exact hp)]
        rw [@List.find?_cons_of_pos _ (fun c => c.1 == name₁) c _
          (by simp only [beq_iff_eq]; exact hp)]
      · rw [@List.find?_cons_of_neg _ (fun c => c.1 == name₁) c _
          (by simp only [beq_iff_eq]; exact hp)]
        rw [@List.find?_cons_of_neg _ (fun c => c.1 == name₁) c _
          (by simp only [beq_iff_eq]; exact hp)]
        exact ih

theorem getCol?_setCol_self (cols : List (String × OutCol)) (name : String) (v : OutCol) :
    getCol? (setCol cols name v) name = some v := by
  rw [setCol]
  by_cases h : cols.any (fun c => c.1 == name) = true
  · rw [if_pos h, getCol?, find?_map_replace cols name v h]
    rfl
  · rw [if_neg h, getCol?, List.find?_append]
    have h1 : cols.find? (fun c => c.1 == name) = none := by
      rw [List.find?_eq_none]
      intro c hc hb
      exact h (List.any_eq_true.mpr ⟨c, hc, hb⟩)
    simp [h1]

theorem getCol?_setCol_ne {name₁ name₂ : String} (h : name₁ ≠ name₂)
    (cols : List (String × OutCol)) (v : OutCol) :
    getCol? (setCol cols name₂ v) name₁ = getCol? cols name₁ := by
  rw [setCol]
  by_cases hm : cols.any (fun c => c.1 == name₂) = true
  · rw [if_pos hm, getCol?, find?_map_replace_ne cols name₂ v name₁ h, getCol?]
  · rw [if_neg hm, getCol?, List.find?_append, getCol?]
    have h2 : List.find? (fun c => c.1 == name₁) [(name₂, v)] = none := by
      simp [Ne.symm h]
    rw [h2]
    simp

theorem seqOption_isSome_iff {α : Type} {l : List (Option α)} :
    (seqOption l).isSome = true ↔ ∀ o ∈ l, o.isSome = true := by
  induction l with
  | nil => simp [seqOption]
  | cons o os ih =>
    cases o with
    | none => simp [seqOption]
    | some x =>
      have hm : (seqOption (some x :: os)).isSome = (seqOption os).isSome := by
        cases hos : seqOption os <;> simp [seqOption, hos]
      rw [hm]
      simp only [List.mem_cons, forall_eq_or_imp, Option.isSome_some, true_and]
      exact ih

theorem seqOption_length {α : Type} {l : List (Option α)} {xs : List α}
    (h : seqOption l = some xs) : xs.length = l.length := by
  induction l generalizing xs with
  | nil =>
    simp only [seqOption, Option.some.injEq] at h
    subst h
    rfl
  | cons o os ih =>
    cases o with
    | none => simp [seqOption] at h
    | some x =>
      simp only [seqOption, Option.some_bind, Option.map_eq_some'] at h
      obtain ⟨ys, hys, rfl⟩ := h
      simp [ih hys]

theorem colsToRat?_isSome_iff {cols : List (String × List Cell)} :
    (colsToRat? cols).isSome = true ↔
      ∀ c ∈ cols, ∀ cell ∈ c.2, (cellFloat? cell).isSome = true := by
  rw [colsToRat?, seqOption_isSome_iff]
  constructor
  · intro h c hc cell hcell
    have h1 := h _ (List.mem_map.mpr ⟨c, hc, rfl⟩)
    rw [seqOption_isSome_iff] at h1
    exact h1 _ (List.mem_map.mpr ⟨cell, hcell, rfl⟩)
  · intro h o ho
    obtain ⟨c, hc, rfl⟩ := List.mem_map.mp ho
    rw [seqOption_isSome_iff]
    intro o' ho'
    obtain ⟨cell, hcell, rfl⟩ := List.mem_map.mp ho'
    exact h c hc cell hcell

theorem colsToRat?_length {cols : List (String × List Cell)} {X : List (List ℚ)}
    (h : colsToRat? cols = some X) : X.length = cols.length := by
  rw [colsToRat?] at h
  have h1 := seqOption_length h
  simpa using h1

theorem validate_ok_wellFormed {f : FileIn} {w i : String} {v : ValidInput}
    (h : validate f w i = .ok v) : wellFormed f w i := by
  cases f with
  | missing => cases h
  | unreadable => cases h
  | table df =>
    rw [validate] at h
    split at h
    · cases h
    · rename_i h3
      split at h
      · cases h
      · rename_i X hX
        split at h
        · cases h
        · rename_i hc
          split at h
          · cases h
          · rename_i ws hws
            split at h
            · rename_i him
              push_neg at hc
              have hXlen : X.length = df.nCols - 1 := by
                rw [colsToRat?_length hX, List.length_drop]
                rfl
              rw [wellFormed]
              refine ⟨by omega, ?_, by rw [hc.1, hXlen], by rw [hc.2, hXlen], ?_, ?_⟩
              · exact colsToRat?_isSome_iff.mp (by rw [hX]; rfl)
              · intro t ht
                have h1 : ((pySplit w).map pyFloat?).all (fun o => o.isSome) = true := by
                  rw [List.all_eq_true]
                  intro o ho
                  exact seqOption_isSome_iff.mp (by rw [hws]; rfl) o ho
                rw [List.all_eq_true] at h1
                exact h1 _ (List.mem_map.mpr ⟨t, ht, rfl⟩)
              · intro t ht
                rw [List.all_eq_true] at him
                have h1 := him t ht
                rcases Bool.or_eq_true_iff.mp h1 with h' | h'
                · exact Or.inl (beq_iff_eq.mp h')
                · exact Or.inr (beq_iff_eq.mp h')
            · cases h

theorem ratTrunc_of_nonneg {q : ℚ} (h : 0 ≤ q) : ratTrunc q = ⌊q⌋ := if_pos h

theorem pandasRank_get? {s : List ℚ} {i : ℕ} (hi : i < s.length) :
    (pandasRank s).get? i =
      some (ratTrunc ((s.countP (fun y => decide (s.get ⟨i, hi⟩ < y)) : ℚ) +
        ((s.count (s.get ⟨i, hi⟩) : ℚ) + 1) / 2)) := by
  rw [pandasRank, List.get?_map, List.get?_eq_get hi]
  rfl

theorem ratTrunc_avg (g k : ℕ) :
    ratTrunc ((g : ℚ) + ((k : ℚ) + 1) / 2) = (g : ℤ) + ⌊((k : ℚ) + 1) / 2⌋ := by
  have h0 : (0 : ℚ) ≤ (g : ℚ) + ((k : ℚ) + 1) / 2 := by positivity
  rw [ratTrunc_of_nonneg h0]
  rw [show ((g : ℚ) : ℚ) = ((g : ℤ) : ℚ) by push_cast; ring]
  exact Int.floor_int_add _ _

theorem floor_half_small {k : ℕ} (h1 : 1 ≤ k) (h2 : k ≤ 2) :
    ⌊((k : ℚ) + 1) / 2⌋ = 1 := by
  interval_cases k
  · rw [show ((1 : ℕ) : ℚ) + 1 = 2 by norm_num]
    rw [show (2 : ℚ) / 2 = 1 by norm_num]
    exact Int.floor_one
  · rw [Int.floor_eq_iff]
    constructor
    · push_cast
      norm_num
    · push_cast
      norm_num

theorem list_map_sum_fin {α : Type} (l : List α) (g : α → ℝ) :
    (l.map g).sum = ∑ i : Fin l.length, g (l.get i) := by
  conv_lhs => rw [← List.ofFn_get l]
  rw [List.map_ofFn, List.sum_ofFn]
  rfl

theorem map_sum_entry (col : List ℚ) (F : ℚ → ℝ) :
    (col.map F).sum = ∑ k in Finset.range col.length, F (entry col k) := by
  rw [list_map_sum_fin col F,
    ← Fin.sum_univ_eq_sum_range (fun k => F (entry col k)) col.length]
  apply Finset.sum_congr rfl
  intro k _
  congr 1
  rw [entry, getD_of_lt col 0 k.isLt]

theorem cast_sum_sq (col : List ℚ) :
    (((col.map (fun x => x ^ 2)).sum : ℚ) : ℝ) =
      (col.map (fun x => ((x : ℚ) : ℝ) ^ 2)).sum := by
  induction col with
  | nil => simp
  | cons x xs ih =>
    simp only [List.map_cons, List.sum_cons, Rat.cast_add]
    rw [ih]
    push_cast
    ring

theorem colj_mem {X : List (List ℚ)} {j : ℕ} (hj : j < X.length) : colj X j ∈ X := by
  rw [colj, getD_of_lt X [] hj]
  exact List.get_mem X j hj

theorem range_map_sum (g : ℕ → ℝ) (m : ℕ) :
    ((List.range m).map g).sum = ∑ j in Finset.range m, g j := by
  induction m with
  | zero => simp
  | succ m ih =>
    rw [List.range_succ, List.map_append, List.sum_append, Finset.sum_range_succ, ih]
    simp

theorem colNorm_eq_spec {X : List (List ℚ)} {n : ℕ} (hlen : ∀ col ∈ X, col.length = n)
    (j : Fin X.length) :
    colNorm (colj X j) = specNorm (rawOf X n) j := by
  rw [colNorm, specNorm]
  congr 1
  rw [cast_sum_sq, map_sum_entry]
  have hcl : (colj X (j : ℕ)).length = n := hlen _ (colj_mem j.isLt)
  rw [hcl, ← Fin.sum_univ_eq_sum_range (fun k => ((entry (colj X (j : ℕ)) k : ℚ) : ℝ) ^ 2) n]
  rfl

theorem wEntry_eq_spec {X : List (List ℚ)} {ws : List ℚ} {n : ℕ}
    (hlen : ∀ col ∈ X, col.length = n) (i : Fin n) (j : Fin X.length) :
    specWeighted (rawOf X n) (fun j => ((wj ws (j : ℕ) : ℚ) : ℝ)) i j =
      wEntry (colj X (j : ℕ)) (wj ws (j : ℕ)) (i : ℕ) := by
  rw [specWeighted, specNormalized, wEntry, ← colNorm_eq_spec hlen j]
  rfl

theorem listMax_eq_sup' {l : List ℝ} {n : ℕ} (hln : l.length = n) (hn : 0 < n)
    (f : Fin n → ℝ) (hf : ∀ k : Fin n, l.get? (k : ℕ) = some (f k)) :
    listMax l = Finset.univ.sup' ⟨⟨0, hn⟩, Finset.mem_univ _⟩ f := by
  have hne : l ≠ [] := by
    intro hc
    rw [hc] at hln
    simp only [List.length_nil] at hln
    omega
  apply le_antisymm
  · obtain ⟨⟨k, hk⟩, hkm⟩ := List.mem_iff_get.mp (listMax_mem hne)
    have hkn : k < n := by omega
    have h1 : l.get? k = some (listMax l) := by rw [List.get?_eq_get hk, hkm]
    have h2 := hf ⟨k, hkn⟩
    rw [h1] at h2
    rw [Option.some.inj h2]
    exact Finset.le_sup' f (Finset.mem_univ _)
  · apply Finset.sup'_le
    intro k _
    exact le_listMax (List.get?_mem (hf k))

theorem listMin_eq_inf' {l : List ℝ} {n : ℕ} (hln : l.length = n) (hn : 0 < n)
    (f : Fin n → ℝ) (hf : ∀ k : Fin n, l.get? (k : ℕ) = some (f k)) :
    listMin l = Finset.univ.inf' ⟨⟨0, hn⟩, Finset.mem_univ _⟩ f := by
  have hne : l ≠ [] := by
    intro hc
    rw [hc] at hln
    simp only [List.length_nil] at hln
    omega
  apply le_antisymm
  · apply Finset.le_inf'
    intro k _
    exact listMin_le (List.get?_mem (hf k))
  · obtain ⟨⟨k, hk⟩, hkm⟩ := List.mem_iff_get.mp (listMin_mem hne)
    have hkn : k < n := by omega
    have h1 : l.get? k = some (listMin l) := by rw [List.get?_eq_get hk, hkm]
    have h2 := hf ⟨k, hkn⟩
    rw [h1] at h2
    rw [Option.some.inj h2]
    exact Finset.inf'_le f (Finset.mem_univ _)

theorem wCol_get_spec {X : List (List ℚ)} {ws : List ℚ} {n : ℕ}
    (hlen : ∀ col ∈ X, col.length = n) (j : Fin X.length) (k : Fin n) :
    (wCol (colj X (j : ℕ)) (wj ws (j : ℕ))).get? (k : ℕ) =
      some (specWeighted (rawOf X n) (fun j => ((wj ws (j : ℕ) : ℚ) : ℝ)) k j) := by
  have hcl : (colj X (j : ℕ)).length = n := hlen _ (colj_mem j.isLt)
  have hkl : (k : ℕ) < (colj X (j : ℕ)).length := hcl ▸ k.isLt
  rw [wCol, List.get?_map, List.get?_eq_get hkl, Option.map_some']
  congr 1
  rw [wEntry_eq_spec hlen k j, wEntry, entry, getD_of_lt _ 0 hkl]

theorem idealBest_eq_spec {X : List (List ℚ)} {ws : List ℚ} {imps : List String}
    {n : ℕ} (hlen : ∀ col ∈ X, col.length = n) (hn : 0 < n) (j : Fin X.length) :
    idealBestCol (colj X (j : ℕ)) (wj ws (j : ℕ)) (impj imps (j : ℕ)) =
      specBest (rawOf X n) (fun j => ((wj ws (j : ℕ) : ℚ) : ℝ))
        (fun j => impj imps (j : ℕ) == "+") hn j := by
  have hcl : (colj X (j : ℕ)).length = n := hlen _ (colj_mem j.isLt)
  have hwcl : (wCol (colj X (j : ℕ)) (wj ws (j : ℕ))).length = n := by
    rw [wCol, List.length_map, hcl]
  by_cases him : impj imps (j : ℕ) = "+"
  · rw [idealBestCol, if_pos him, specBest, if_pos (beq_iff_eq.mpr him)]
    exact listMax_eq_sup' hwcl hn _ (fun k => wCol_get_spec hlen j k)
  · rw [idealBestCol, if_neg him, specBest,
      if_neg (by simp only [beq_iff_eq]; exact him)]
    exact listMin_eq_inf' hwcl hn _ (fun k => wCol_get_spec hlen j k)

theorem idealWorst_eq_spec {X : List (List ℚ)} {ws : List ℚ} {imps : List String}
    {n : ℕ} (hlen : ∀ col ∈ X, col.length = n) (hn : 0 < n) (j : Fin X.length) :
    idealWorstCol (colj X (j : ℕ)) (wj ws (j : ℕ)) (impj imps (j : ℕ)) =
      specWorst (rawOf X n) (fun j => ((wj ws (j : ℕ) : ℚ) : ℝ))
        (fun j => impj imps (j : ℕ) == "+") hn j := by
  have hcl : (colj X (j : ℕ)).length = n := hlen _ (colj_mem j.isLt)
  have hwcl : (wCol (colj X (j : ℕ)) (wj ws (j : ℕ))).length = n := by
    rw [wCol, List.length_map, hcl]
  by_cases him : impj imps (j : ℕ) = "+"
  · rw [idealWorstCol, if_pos him, specWorst, if_pos (beq_iff_eq.mpr him)]
    exact listMin_eq_inf' hwcl hn _ (fun k => wCol_get_spec hlen j k)
  · rw [idealWorstCol, if_neg him, specWorst,
      if_neg (by simp only [beq_iff_eq]; exact him)]
    exact listMax_eq_sup' hwcl hn _ (fun k => wCol_get_spec hlen j k)

theorem okIdx_all {X : List (List ℚ)} (hdeg : ∀ col ∈ X, ¬ colDeg col) :
    okIdx X = List.range X.length := by
  rw [okIdx, List.filter_eq_self]
  intro j hj
  simp only [decide_eq_true_eq]
  exact hdeg _ (colj_mem (List.mem_range.mp hj))

theorem dBest_eq_spec {X : List (List ℚ)} {ws : List ℚ} {imps : List String}
    {n : ℕ} (hlen : ∀ col ∈ X, col.length = n) (hdeg : ∀ col ∈ X, ¬ colDeg col)
    (hn : 0 < n) {i : ℕ} (hi : i < n) :
    dBest X ws imps i = specDBest (rawOf X n) (fun j => ((wj ws (j : ℕ) : ℚ) : ℝ))
      (fun j => impj imps (j : ℕ) == "+") hn ⟨i, hi⟩ := by
  rw [dBest, specDBest]
  congr 1
  rw [okIdx_all hdeg, range_map_sum, ← Fin.sum_univ_eq_sum_range]
  apply Finset.sum_congr rfl
  intro j _
  rw [wEntry_eq_spec hlen ⟨i, hi⟩ j, idealBest_eq_spec hlen hn j]

theorem dWorst_eq_spec {X : List (List ℚ)} {ws : List ℚ} {imps : List String}
    {n : ℕ} (hlen : ∀ col ∈ X, col.length = n) (hdeg : ∀ col ∈ X, ¬ colDeg col)
    (hn : 0 < n) {i : ℕ} (hi : i < n) :
    dWorst X ws imps i = specDWorst (rawOf X n) (fun j => ((wj ws (j : ℕ) : ℚ) : ℝ))
      (fun j => impj imps (j : ℕ) == "+") hn ⟨i, hi⟩ := by
  rw [dWorst, specDWorst]
  congr 1
  rw [okIdx_all hdeg, range_map_sum, ← Fin.sum_univ_eq_sum_range]
  apply Finset.sum_congr rfl
  intro j _
  rw [wEntry_eq_spec hlen ⟨i, hi⟩ j, idealWorst_eq_spec hlen hn j]

theorem scoreValsOf_length (v : ValidInput) : (scoreValsOf v).length = v.df.nRows := by
  rw [scoreValsOf, scoresList, List.length_map, List.length_map, List.length_range]

theorem pandasRank_length {α : Type} [DecidableEq α] [LT α]
    [DecidableRel ((· < ·) : α → α → Prop)] (s : List α) :
    (pandasRank s).length = s.length := by
  rw [pandasRank, List.length_map]

theorem setCol_length_le (cols : List (String × OutCol)) (name : String) (v : OutCol) :
    (setCol cols name v).length ≤ cols.length + 1 := by
  by_cases h : name ∈ cols.map (fun c => c.1)
  · rw [setCol_mem_length h]
    omega
  · rw [setCol_not_mem_length h]

theorem names_setCol_not_mem {cols : List (String × OutCol)} {name : String} {v : OutCol}
    (h : ¬ name ∈ cols.map (fun c => c.1)) :
    (setCol cols name v).map (fun c => c.1) = cols.map (fun c => c.1) ++ [name] := by
  rw [setCol_not_mem h, List.map_append]
  rfl

/-- C1, counterexample.  The claim asserts standard competition ranking
(rank = 1 + number of strictly greater scores), under which a three-way
tie at the top yields ranks [1, 1, 1].  The rank column of the program
(`pandasRank`, pandas method `average` followed by `astype(int)`) instead
assigns [2, 2, 2] to three equal scores 0.9: the shared average position
is (1+2+3)/3 = 2. -/
theorem C1_counterexample :
    pandasRank [(9 : ℚ)/10, 9/10, 9/10] = [2, 2, 2] ∧
      ([2, 2, 2] : List ℤ) ≠ [1 + 0, 1 + 0, 1 + 0] := by
  constructor
  · norm_num [pandasRank, ratTrunc]
  · decide

/-- C1, amended claim.  Rows with equal scores receive the same rank, but
the shared value is trunc(average position) = (#strictly greater) +
⌊(tie-group size + 1) / 2⌋, which coincides with the claimed competition
rank 1 + (#strictly greater) exactly when the tie group has at most two
rows (e.g. scores [0.9, 0.9, 0.5] still get ranks [1, 1, 3]). -/
theorem C1_rank_average_trunc (s : List ℚ) (i : ℕ) (hi : i < s.length) :
    (pandasRank s).get? i =
      some ((s.countP (fun y => decide (s.get ⟨i, hi⟩ < y)) : ℤ) +
        ⌊((s.count (s.get ⟨i, hi⟩) : ℚ) + 1) / 2⌋) ∧
    (∀ j, ∀ hj : j < s.length, s.get ⟨j, hj⟩ = s.get ⟨i, hi⟩ →
      (pandasRank s).get? j = (pandasRank s).get? i) ∧
    (s.count (s.get ⟨i, hi⟩) ≤ 2 →
      (pandasRank s).get? i =
        some (1 + (s.countP (fun y => decide (s.get ⟨i, hi⟩ < y)) : ℤ))) := by
  have hmain := pandasRank_get? hi
  have havg := ratTrunc_avg (s.countP (fun y => decide (s.get ⟨i, hi⟩ < y)))
    (s.count (s.get ⟨i, hi⟩))
  refine ⟨?_, ?_, ?_⟩
  · rw [hmain, havg]
  · intro j hj hje
    rw [pandasRank_get? hj, pandasRank_get? hi, hje]
  · intro hc2
    have hc1 : 1 ≤ s.count (s.get ⟨i, hi⟩) :=
      List.count_pos_iff.mpr (List.get_mem s i hi)
    rw [hmain, havg, floor_half_small hc1 hc2, add_comm]

/-- C1, witness: at scores [0.9, 0.9, 0.5] and row 0 (a two-way tie at
the top) the amended formula applies and the assigned rank is 1. -/
theorem C1_witness :
    0 < ([(9 : ℚ)/10, 9/10, 1/2] : List ℚ).length ∧
      (pandasRank [(9 : ℚ)/10, 9/10, 1/2]).get? 0 = some 1 := by
  have h := C1_rank_average_trunc [(9 : ℚ)/10, 9/10, 1/2] 0 (by norm_num)
  refine ⟨by norm_num, ?_⟩
  have hcount : ([(9 : ℚ)/10, 9/10, 1/2].count ([(9 : ℚ)/10, 9/10, 1/2].get ⟨0, by norm_num⟩)) = 2 := by
    norm_num [List.count_cons]
  have h3 := h.2.2 (by rw [hcount])
  rw [h3]
  norm_num [List.countP_cons]

/-- C5, counterexample.  The claim says any weight string with a
non-positive token is rejected with WeightParseError, so every accepted
WeightVector has only positive entries.  The program accepts the weight
string "0,1" on a valid two-criterion table, producing the weight vector
[0, 1], which contains the non-positive weight 0. -/
theorem C5_counterexample :
    (validate (.table egA) "0,1" "+,+").toOption.map ValidInput.wts = some [0, 1] ∧
      ¬ (∀ w ∈ [(0 : ℚ), 1], 0 < w) := by
  constructor
  · rfl
  · decide

/-- C5, amended claim.  The weight check only requires every token to
parse as a float: whenever validation succeeds, the accepted weight vector
is exactly the float value of each comma-separated token, with no sign
restriction. -/
theorem C5_weights_only_parsed (f : FileIn) (w i : String) (v : ValidInput)
    (hv : validate f w i = .ok v) :
    some v.wts = parseFloats w := by
  cases f with
  | missing => cases hv
  | unreadable => cases hv
  | table df =>
    rw [validate] at hv
    split at hv
    · cases hv
    · split at hv
      · cases hv
      · split at hv
        · cases hv
        · split at hv
          · cases hv
          · rename_i ws hws
            split at hv
            · rw [parseFloats, hws, ← Except.ok.inj hv]
            · cases hv

/-- C5, witness: the weight string "-1,2" (a negative weight) passes
validation and the accepted weight vector is its parsed float values. -/
theorem C5_witness :
    validate (.table egA) "-1,2" "+,+" =
        Except.ok ⟨egA, [[0, 1], [1, 0]], [-1, 2], ["+", "+"]⟩ ∧
      some (ValidInput.wts ⟨egA, [[0, 1], [1, 0]], [-1, 2], ["+", "+"]⟩) =
        parseFloats "-1,2" := by
  have hv : validate (.table egA) "-1,2" "+,+" =
      Except.ok ⟨egA, [[0, 1], [1, 0]], [-1, 2], ["+", "+"]⟩ := rfl
  exact ⟨hv, C5_weights_only_parsed _ _ _ _ hv⟩

/-- C8.  Any input that fails a validation check (missing file, unreadable
table, fewer than 3 columns, non-numeric criterion cell, weight/impact
count mismatch, non-numeric weight, invalid impact symbol — the negation
of `wellFormed`) makes the run print exactly one error line and terminate
with no output file written. -/
theorem C8_validation_failure_no_output (f : FileIn) (w i : String)
    (h : ¬ wellFormed f w i) :
    ∃ m, topsis f w i = .err m ∧ printedOf (topsis f w i) = [m] ∧
      outputOf (topsis f w i) = none := by
  cases hv : validate f w i with
  | error m =>
    refine ⟨m, topsis_err hv, ?_, ?_⟩
    · rw [topsis_err hv]
      rfl
    · rw [topsis_err hv]
      rfl
  | ok v => exact absurd (validate_ok_wellFormed hv) h

/-- C8, witness: the invalid impact string "*,+" on a valid table. -/
theorem C8_witness :
    ¬ wellFormed (.table egA) "1,1" "*,+" ∧
      ∃ m, topsis (.table egA) "1,1" "*,+" = .err m ∧
        printedOf (topsis (.table egA) "1,1" "*,+") = [m] ∧
        outputOf (topsis (.table egA) "1,1" "*,+") = none :=
  ⟨by decide, C8_validation_failure_no_output _ _ _ (by decide)⟩

/-- C10.  On every validation failure the core function raises no
exception and produces no output value distinct from success: it returns
normally (Python `None`, like the success path) after printing a single
message, so callers can only distinguish failure by the printed text or
the absence of the output file. -/
theorem C10_validation_failure_returns (f : FileIn) (w i : String)
    (h : ¬ wellFormed f w i) :
    raisesOf (topsis f w i) = false ∧ outputOf (topsis f w i) = none ∧
      ∃ m, topsis f w i = .err m := by
  cases hv : validate f w i with
  | error m =>
    rw [topsis_err hv]
    exact ⟨rfl, rfl, m, rfl⟩
  | ok v => exact absurd (validate_ok_wellFormed hv) h

/-- C10, witness: a table with a non-numeric criterion cell. -/
theorem C10_witness :
    ¬ wellFormed (.table egBad) "1,1" "+,+" ∧
      (raisesOf (topsis (.table egBad) "1,1" "+,+") = false ∧
        outputOf (topsis (.table egBad) "1,1" "+,+") = none ∧
        ∃ m, topsis (.table egBad) "1,1" "+,+" = .err m) :=
  ⟨by decide, C10_validation_failure_returns _ _ _ (by decide)⟩

/-- C2.  The claim (and the spec, which flags the observed behavior as a
bug) requires a fatal DegenerateColumn error and no output when a
criterion column has Euclidean norm zero.  At the failing input — table
`egZero` with the all-zero criterion column `Z` and second criterion
`C = [7, 24]`, weights "1,1", impacts "+,+" — the program instead divides
0/0 into NaN, pandas `skipna` reductions silently drop the NaN column from
every distance sum, the remaining scores are finite, and the output file
is written. -/
theorem C2_zero_norm_column_writes_output :
    (outputOf (topsis (.table egZero) "1,1" "+,+")).isSome = true := by
  have hv : validate (.table egZero) "1,1" "+,+" =
      Except.ok ⟨egZero, [[0, 0], [7, 24]], [1, 1], ["+", "+"]⟩ := rfl
  have hlen : ∀ col ∈ [[(0 : ℚ), 0], [7, 24]], col.length = 2 := by decide
  have hnd : ¬ degRow [[(0 : ℚ), 0], [7, 24]] [1, 1] := by decide
  have hnc := scoresList_no_nan ["+", "+"] hlen hnd
  rw [topsis_ok hv hnc]
  rfl

/-- C4.  The claim (and the spec) requires the documented fallback score
0.5 for a row at zero distance from both ideals.  At the failing input —
the single-row table `egOne` with row `A = (3, 4)`, weights "1,1", impacts
"+,+" — every weighted column is constant, so `d_best + d_worst = 0` and
line 59 computes 0/0 = NaN instead of 0.5; the `astype(int)` on line 61 then
raises ValueError on the NaN rank, crashing the run with no output. -/
theorem C4_single_row_crashes :
    scoreRow [[(3 : ℚ)], [4]] [1, 1] ["+", "+"] 0 = none ∧
      topsis (.table egOne) "1,1" "+,+" =
        .crash "ValueError: Cannot convert non-finite values (NA or inf) to integer" := by
  have hlen : ∀ col ∈ [[(3 : ℚ)], [4]], col.length = 1 := by decide
  have hd : degRow [[(3 : ℚ)], [4]] [1, 1] := by decide
  refine ⟨(scoreRow_eq_none_iff ["+", "+"] hlen (by norm_num)).mpr hd, ?_⟩
  have hv : validate (.table egOne) "1,1" "+,+" =
      Except.ok ⟨egOne, [[3], [4]], [1, 1], ["+", "+"]⟩ := rfl
  exact topsis_crash hv (scoresList_nan ["+", "+"] hlen (by decide) hd)

/-- C6.  Every score the pipeline actually produces (every non-NaN score)
lies in [0, 1]: both distances are square roots, hence nonnegative, and
the denominator is their sum. -/
theorem C6_score_bounds (X : List (List ℚ)) (ws : List ℚ) (imps : List String) (i : ℕ)
    (h : (scoreRow X ws imps i).isSome = true) :
    0 ≤ (scoreRow X ws imps i).getD 0 ∧ (scoreRow X ws imps i).getD 0 ≤ 1 := by
  by_cases hd : dBest X ws imps i + dWorst X ws imps i = 0
  · rw [scoreRow, if_pos hd] at h
    cases h
  · have hb : 0 ≤ dBest X ws imps i := by
      rw [dBest]
      exact Real.sqrt_nonneg _
    have hw : 0 ≤ dWorst X ws imps i := by
      rw [dWorst]
      exact Real.sqrt_nonneg _
    have hpos : 0 < dBest X ws imps i + dWorst X ws imps i :=
      lt_of_le_of_ne (by linarith) (Ne.symm hd)
    rw [scoreRow, if_neg hd]
    constructor
    · simp only [Option.getD_some]
      exact div_nonneg hw hpos.le
    · simp only [Option.getD_some]
      rw [div_le_one hpos]
      linarith

/-- C6, witness: on the table with criteria [0,1] and [1,0] the score of
row 0 is defined (non-NaN) and lies in [0, 1]. -/
theorem C6_witness :
    (scoreRow [[(0 : ℚ), 1], [1, 0]] [1, 1] ["+", "+"] 0).isSome = true ∧
      (0 ≤ (scoreRow [[(0 : ℚ), 1], [1, 0]] [1, 1] ["+", "+"] 0).getD 0 ∧
        (scoreRow [[(0 : ℚ), 1], [1, 0]] [1, 1] ["+", "+"] 0).getD 0 ≤ 1) := by
  have hlen : ∀ col ∈ [[(0 : ℚ), 1], [1, 0]], col.length = 2 := by decide
  have hs : (scoreRow [[(0 : ℚ), 1], [1, 0]] [1, 1] ["+", "+"] 0).isSome = true :=
    scoreRow_isSome ["+", "+"] hlen (by norm_num) (by decide)
  exact ⟨hs, C6_score_bounds _ _ _ _ hs⟩

/-- C3.  On validated data with no zero-norm column and a nonzero score
denominator, the score computed by the program (lines 43-59, list/column
computations) equals the specification formula: vector normalization by
`sqrt(sum_i raw[i][j]^2)`, elementwise weighting, per-column ideal
best/worst chosen by impact sign (maximum/minimum, swapped for cost
criteria), row-wise Euclidean distances to the two ideal vectors, and the
closeness ratio `d_worst / (d_best + d_worst)` (the `spec*` definitions,
written index-wise from the specification text). -/
theorem C3_score_refines_spec {X : List (List ℚ)} {ws : List ℚ} {imps : List String}
    {n : ℕ} (hn : 0 < n) (hlen : ∀ col ∈ X, col.length = n)
    (hdeg : ∀ col ∈ X, ¬ colDeg col) {i : ℕ} (hi : i < n)
    (hden : dBest X ws imps i + dWorst X ws imps i ≠ 0) :
    scoreRow X ws imps i =
      some (specScore (rawOf X n) (fun j => ((wj ws (j : ℕ) : ℚ) : ℝ))
        (fun j => impj imps (j : ℕ) == "+") hn ⟨i, hi⟩) := by
  rw [scoreRow, if_neg hden, specScore, ← dBest_eq_spec hlen hdeg hn hi,
    ← dWorst_eq_spec hlen hdeg hn hi]

/-- C3, witness: the 2-by-2 table with criteria [0,1] and [1,0], unit
weights and benefit impacts satisfies all hypotheses, and the program
score of row 0 equals the specification formula. -/
theorem C3_witness :
    (0 : ℕ) < 2 ∧
    (∀ col ∈ [[(0 : ℚ), 1], [1, 0]], col.length = 2) ∧
    (∀ col ∈ [[(0 : ℚ), 1], [1, 0]], ¬ colDeg col) ∧
    dBest [[(0 : ℚ), 1], [1, 0]] [1, 1] ["+", "+"] 0 +
      dWorst [[(0 : ℚ), 1], [1, 0]] [1, 1] ["+", "+"] 0 ≠ 0 ∧
    scoreRow [[(0 : ℚ), 1], [1, 0]] [1, 1] ["+", "+"] 0 =
      some (specScore (rawOf [[(0 : ℚ), 1], [1, 0]] 2)
        (fun j => ((wj [1, 1] (j : ℕ) : ℚ) : ℝ))
        (fun j => impj ["+", "+"] (j : ℕ) == "+") (by norm_num) ⟨0, by norm_num⟩) := by
  have hlen : ∀ col ∈ [[(0 : ℚ), 1], [1, 0]], col.length = 2 := by decide
  have hdeg : ∀ col ∈ [[(0 : ℚ), 1], [1, 0]], ¬ colDeg col := by decide
  have hden : dBest [[(0 : ℚ), 1], [1, 0]] [1, 1] ["+", "+"] 0 +
      dWorst [[(0 : ℚ), 1], [1, 0]] [1, 1] ["+", "+"] 0 ≠ 0 := by
    intro hc
    exact (by decide : ¬ degRow [[(0 : ℚ), 1], [1, 0]] [1, 1])
      ((denom_eq_zero_iff hlen (by norm_num)).mp hc)
  exact ⟨by norm_num, hlen, hdeg, hden,
    C3_score_refines_spec (by norm_num) hlen hdeg (by norm_num) hden⟩

/-- C7, counterexample.  The claim asserts that for every valid input the
output has all original columns unchanged plus exactly two appended
columns.  The table `egRank` is valid (passes every check) but already
contains a numeric column named `Rank`; pandas column assignment
overwrites it in place, so the written output has 4 = 3 + 1 columns, not
3 + 2. -/
theorem C7_counterexample :
    (outputOf (topsis (.table egRank) "1,1" "+,+")).isSome = true ∧
      ((outputOf (topsis (.table egRank) "1,1" "+,+")).getD ⟨[]⟩).cols.length ≠
        egRank.nCols + 2 := by
  have hv : validate (.table egRank) "1,1" "+,+" =
      Except.ok ⟨egRank, [[0, 1], [1, 0]], [1, 1], ["+", "+"]⟩ := rfl
  have hlen : ∀ col ∈ [[(0 : ℚ), 1], [1, 0]], col.length = 2 := by decide
  have hnd : ¬ degRow [[(0 : ℚ), 1], [1, 0]] [1, 1] := by decide
  have hnc := scoresList_no_nan ["+", "+"] hlen hnd
  rw [topsis_ok hv hnc]
  refine ⟨rfl, ?_⟩
  simp only [outputOf, Option.getD_some]
  have hTS : ¬ "Topsis Score" ∈
      ((ValidInput.df ⟨egRank, [[0, 1], [1, 0]], [1, 1], ["+", "+"]⟩).cols.map
        (fun c => (c.1, OutCol.cells c.2))).map (fun c => c.1) := by
    rw [List.map_map]
    decide
  have hR : "Rank" ∈
      (setCol ((ValidInput.df ⟨egRank, [[0, 1], [1, 0]], [1, 1], ["+", "+"]⟩).cols.map
          (fun c => (c.1, OutCol.cells c.2))) "Topsis Score"
        (OutCol.scoreVals (scoreValsOf ⟨egRank, [[0, 1], [1, 0]], [1, 1], ["+", "+"]⟩))).map
        (fun c => c.1) := by
    rw [names_setCol_not_mem hTS, List.map_map]
    apply List.mem_append_left
    decide
  rw [setCol_mem_length hR, setCol_not_mem_length hTS, List.length_map]
  decide

/-- C7, amended claim.  For every valid input whose column names do not
already include `Topsis Score` or `Rank`, the output table is exactly the
original columns, in order, with their values unchanged, followed by the
appended score and rank columns; so the column count is the input count
plus 2, and (for a rectangular table) every output column has as many entries
as the input has rows. -/
theorem C7_output_shape (f : FileIn) (w i : String) (v : ValidInput)
    (hv : validate f w i = .ok v)
    (hnc : (scoresList v.X v.wts v.imps v.df.nRows).any (fun o => o.isNone) = false)
    (h1 : ¬ "Topsis Score" ∈ v.df.names) (h2 : ¬ "Rank" ∈ v.df.names)
    (hrect : v.df.Rect) :
    outputOf (topsis f w i) =
      some ⟨v.df.cols.map (fun c => (c.1, OutCol.cells c.2)) ++
        [("Topsis Score", OutCol.scoreVals (scoreValsOf v)),
         ("Rank", OutCol.rankVals (pandasRank (scoreValsOf v)))]⟩ ∧
    ((outputOf (topsis f w i)).getD ⟨[]⟩).cols.length = v.df.nCols + 2 ∧
    ∀ c ∈ ((outputOf (topsis f w i)).getD ⟨[]⟩).cols, outColLen c.2 = v.df.nRows := by
  have hbase : (v.df.cols.map (fun c => (c.1, OutCol.cells c.2))).map (fun c => c.1) =
      v.df.names := by
    rw [List.map_map]
    rfl
  have hTS : ¬ "Topsis Score" ∈
      (v.df.cols.map (fun c => (c.1, OutCol.cells c.2))).map (fun c => c.1) := by
    rw [hbase]
    exact h1
  have hR : ¬ "Rank" ∈
      (setCol (v.df.cols.map (fun c => (c.1, OutCol.cells c.2))) "Topsis Score"
        (OutCol.scoreVals (scoreValsOf v))).map (fun c => c.1) := by
    rw [names_setCol_not_mem hTS, hbase]
    intro hmem
    rcases List.mem_append.mp hmem with hmem | hmem
    · exact h2 hmem
    · simp at hmem
  have hout : outputOf (topsis f w i) =
      some ⟨v.df.cols.map (fun c => (c.1, OutCol.cells c.2)) ++
        [("Topsis Score", OutCol.scoreVals (scoreValsOf v)),
         ("Rank", OutCol.rankVals (pandasRank (scoreValsOf v)))]⟩ := by
    rw [topsis_ok hv hnc]
    simp only [outputOf]
    rw [setCol_not_mem hR, setCol_not_mem hTS, List.append_assoc]
    rfl
  refine ⟨hout, ?_, ?_⟩
  · rw [hout]
    simp only [Option.getD_some]
    rw [List.length_append, List.length_map]
    rfl
  · rw [hout]
    simp only [Option.getD_some]
    intro c hc
    rcases List.mem_append.mp hc with hc | hc
    · obtain ⟨c0, hc0, rfl⟩ := List.mem_map.mp hc
      exact hrect c0 hc0
    · rcases List.mem_cons.mp hc with rfl | hc
      · exact scoreValsOf_length v
      · rcases List.mem_cons.mp hc with rfl | hc
        · rw [outColLen, pandasRank_length]
          exact scoreValsOf_length v
        · cases hc

/-- C7, witness: the table `egA` (no `Topsis Score`/`Rank` columns)
satisfies every hypothesis, so its output is the original three columns
plus the two appended ones. -/
theorem C7_witness :
    validate (.table egA) "1,1" "+,+" = Except.ok egAValid ∧
      (scoresList egAValid.X egAValid.wts egAValid.imps egAValid.df.nRows).any
        (fun o => o.isNone) = false ∧
      ¬ "Topsis Score" ∈ egAValid.df.names ∧
      ¬ "Rank" ∈ egAValid.df.names ∧
      egAValid.df.Rect ∧
      ((outputOf (topsis (.table egA) "1,1" "+,+")).getD ⟨[]⟩).cols.length =
        egAValid.df.nCols + 2 := by
  have hv : validate (.table egA) "1,1" "+,+" = Except.ok egAValid := rfl
  have hlen : ∀ col ∈ [[(0 : ℚ), 1], [1, 0]], col.length = 2 := by decide
  have hnc : (scoresList egAValid.X egAValid.wts egAValid.imps egAValid.df.nRows).any
      (fun o => o.isNone) = false :=
    scoresList_no_nan ["+", "+"] hlen (by decide)
  have h1 : ¬ "Topsis Score" ∈ egAValid.df.names := by decide
  have h2 : ¬ "Rank" ∈ egAValid.df.names := by decide
  have hrect : egAValid.df.Rect := by decide
  exact ⟨hv, hnc, h1, h2, hrect,
    (C7_output_shape _ _ _ _ hv hnc h1 h2 hrect).2.1⟩

/-- C9.  If the valid input already has a column named `Topsis Score` or
`Rank`, the pandas assignments on lines 60-61 overwrite that column in
place rather than appending: the written output then has fewer than
input + 2 columns, and the column of that name now holds the computed
scores (respectively ranks) instead of the original cell values. -/
theorem C9_overwrite_in_place (f : FileIn) (w i : String) (v : ValidInput)
    (hv : validate f w i = .ok v)
    (hnc : (scoresList v.X v.wts v.imps v.df.nRows).any (fun o => o.isNone) = false)
    (hmem : "Topsis Score" ∈ v.df.names ∨ "Rank" ∈ v.df.names) :
    ((outputOf (topsis f w i)).getD ⟨[]⟩).cols.length < v.df.nCols + 2 ∧
    ("Topsis Score" ∈ v.df.names →
      getCol? ((outputOf (topsis f w i)).getD ⟨[]⟩).cols "Topsis Score" =
        some (OutCol.scoreVals (scoreValsOf v))) ∧
    ("Rank" ∈ v.df.names →
      getCol? ((outputOf (topsis f w i)).getD ⟨[]⟩).cols "Rank" =
        some (OutCol.rankVals (pandasRank (scoreValsOf v)))) := by
  rw [topsis_ok hv hnc]
  simp only [outputOf, Option.getD_some]
  have hbase : (v.df.cols.map (fun c => (c.1, OutCol.cells c.2))).map (fun c => c.1) =
      v.df.names := by
    rw [List.map_map]
    rfl
  have hb : (v.df.cols.map (fun c => (c.1, OutCol.cells c.2))).length = v.df.nCols :=
    List.length_map _ _
  refine ⟨?_, ?_, ?_⟩
  · rcases hmem with hm | hm
    · have h1 : (setCol (v.df.cols.map (fun c => (c.1, OutCol.cells c.2))) "Topsis Score"
          (OutCol.scoreVals (scoreValsOf v))).length = v.df.nCols := by
        rw [setCol_mem_length (by rw [hbase]; exact hm), hb]
      have h2 := setCol_length_le
        (setCol (v.df.cols.map (fun c => (c.1, OutCol.cells c.2))) "Topsis Score"
          (OutCol.scoreVals (scoreValsOf v))) "Rank"
        (OutCol.rankVals (pandasRank (scoreValsOf v)))
      rw [h1] at h2
      omega
    · have h1 : "Rank" ∈ (setCol (v.df.cols.map (fun c => (c.1, OutCol.cells c.2)))
          "Topsis Score" (OutCol.scoreVals (scoreValsOf v))).map (fun c => c.1) := by
        by_cases hTS : "Topsis Score" ∈
            (v.df.cols.map (fun c => (c.1, OutCol.cells c.2))).map (fun c => c.1)
        · rw [names_setCol_mem hTS, hbase]
          exact hm
        · rw [names_setCol_not_mem hTS]
          apply List.mem_append_left
          rw [hbase]
          exact hm
      have h2 := setCol_mem_length (v := OutCol.rankVals (pandasRank (scoreValsOf v))) h1
      have h3 := setCol_length_le (v.df.cols.map (fun c => (c.1, OutCol.cells c.2)))
        "Topsis Score" (OutCol.scoreVals (scoreValsOf v))
      rw [h2]
      rw [hb] at h3
      omega
  · intro hm
    rw [getCol?_setCol_ne (by decide) _ _, getCol?_setCol_self]
  · intro hm
    rw [getCol?_setCol_self]

/-- C9, witness: the table `egTS` already has a numeric `Topsis Score`
column; the output has fewer than 3 + 2 columns and that column now holds
the computed scores. -/
theorem C9_witness :
    validate (.table egTS) "1,1" "+,+" =
        Except.ok ⟨egTS, [[0, 1], [1, 0]], [1, 1], ["+", "+"]⟩ ∧
      ("Topsis Score" ∈ (ValidInput.df
          ⟨egTS, [[0, 1], [1, 0]], [1, 1], ["+", "+"]⟩).names ∨
        "Rank" ∈ (ValidInput.df ⟨egTS, [[0, 1], [1, 0]], [1, 1], ["+", "+"]⟩).names) ∧
      ((outputOf (topsis (.table egTS) "1,1" "+,+")).getD ⟨[]⟩).cols.length <
        (ValidInput.df ⟨egTS, [[0, 1], [1, 0]], [1, 1], ["+", "+"]⟩).nCols + 2 := by
  have hv : validate (.table egTS) "1,1" "+,+" =
      Except.ok ⟨egTS, [[0, 1], [1, 0]], [1, 1], ["+", "+"]⟩ := rfl
  have hlen : ∀ col ∈ [[(0 : ℚ), 1], [1, 0]], col.length = 2 := by decide
  have hnc : (scoresList (ValidInput.X ⟨egTS, [[0, 1], [1, 0]], [1, 1], ["+", "+"]⟩)
      (ValidInput.wts ⟨egTS, [[0, 1], [1, 0]], [1, 1], ["+", "+"]⟩)
      (ValidInput.imps ⟨egTS, [[0, 1], [1, 0]], [1, 1], ["+", "+"]⟩)
      (ValidInput.df ⟨egTS, [[0, 1], [1, 0]], [1, 1], ["+", "+"]⟩).nRows).any
      (fun o => o.isNone) = false :=
    scoresList_no_nan ["+", "+"] hlen (by decide)
  have hmem : "Topsis Score" ∈ (ValidInput.df
      ⟨egTS, [[0, 1], [1, 0]], [1, 1], ["+", "+"]⟩).names ∨
      "Rank" ∈ (ValidInput.df ⟨egTS, [[0, 1], [1, 0]], [1, 1], ["+", "+"]⟩).names :=
    Or.inl (by decide)
  exact ⟨hv, hmem, (C9_overwrite_in_place _ _ _ _ hv hnc hmem).1⟩

end TopsisPy
